import Mathlib

set_option autoImplicit false

namespace Zigbook

/-!
Shallow embedding of the zigbook playground compile/run orchestration engine
(`src/workers/zig-worker.ts`, `src/workers/runner-worker.ts`, and the
standard-library hydration module).  JavaScript strings are modelled as
`List Char`; JS `Map` objects are modelled as association lists with unique
keys, preserving insertion order; byte buffers are `List Nat`.
-/

/-! ### JavaScript string primitives over `List Char` -/

/-- Whitespace predicate used to model JS `String.prototype.trim` and the
regex class `\s` (restricted to the ASCII whitespace actually produced by
the playground host). -/
def jsWhitespace (c : Char) : Bool := c.isWhitespace

/-- JS `s.trim()`: remove leading and trailing whitespace. -/
def jsTrim (s : List Char) : List Char :=
  ((s.dropWhile jsWhitespace).reverse.dropWhile jsWhitespace).reverse

/-- JS `s.split(sep)` for a single-character separator `sep`
(`''.split('/') = ['']`, `'/a'.split('/') = ['', 'a']`, ...). -/
def splitOnChar (sep : Char) : List Char → List (List Char)
  | [] => [[]]
  | c :: rest =>
    match splitOnChar sep rest with
    | [] => [[]]
    | piece :: pieces =>
      if c = sep then [] :: piece :: pieces else (c :: piece) :: pieces

/-- JS `segments.join(sep)` for a single-character separator. -/
def joinChar (sep : Char) : List (List Char) → List Char
  | [] => []
  | [p] => p
  | p :: q :: rest => p ++ sep :: joinChar sep (q :: rest)

theorem splitOnChar_ne_nil (sep : Char) (s : List Char) : splitOnChar sep s ≠ [] := by
  induction s with
  | nil => simp [splitOnChar]
  | cons c rest ih =>
    simp only [splitOnChar]
    rcases h : splitOnChar sep rest with _ | ⟨piece, pieces⟩
    · exact absurd h ih
    · by_cases hc : c = sep <;> simp [hc]

theorem not_mem_of_mem_splitOnChar (sep : Char) (s : List Char) :
    ∀ piece ∈ splitOnChar sep s, sep ∉ piece := by
  induction s with
  | nil =>
    intro piece hmem
    simp [splitOnChar] at hmem
    simp [hmem]
  | cons c rest ih =>
    intro piece hmem
    simp only [splitOnChar] at hmem
    rcases h : splitOnChar sep rest with _ | ⟨first, pieces⟩
    · exact absurd h (splitOnChar_ne_nil sep rest)
    · rw [h] at hmem
      simp only [] at hmem
      by_cases hc : c = sep
      · rw [if_pos hc] at hmem
        rcases List.mem_cons.mp hmem with rfl | hmem2
        · simp
        · exact ih piece (by rw [h]; exact hmem2)
      · rw [if_neg hc] at hmem
        rcases List.mem_cons.mp hmem with rfl | hmem2
        · intro hsep
          rcases List.mem_cons.mp hsep with h1 | h1
          · exact hc h1.symm
          · exact ih first (by rw [h]; exact List.mem_cons_self _ _) h1
        · exact ih piece (by rw [h]; exact List.mem_cons_of_mem _ hmem2)

theorem splitOnChar_of_not_mem (sep : Char) (p : List Char) (hp : sep ∉ p) :
    splitOnChar sep p = [p] := by
  induction p with
  | nil => simp [splitOnChar]
  | cons c rest ih =>
    have hc : c ≠ sep := fun h => hp (h ▸ List.mem_cons_self _ _)
    have hrest : sep ∉ rest := fun h => hp (List.mem_cons_of_mem _ h)
    simp only [splitOnChar, ih hrest]
    simp [hc]

theorem splitOnChar_append_sep (sep : Char) (p s : List Char) (hp : sep ∉ p) :
    splitOnChar sep (p ++ sep :: s) = p :: splitOnChar sep s := by
  induction p with
  | nil =>
    simp only [List.nil_append, splitOnChar]
    rcases h : splitOnChar sep s with _ | ⟨piece, pieces⟩
    · exact absurd h (splitOnChar_ne_nil sep s)
    · simp
  | cons c rest ih =>
    have hc : c ≠ sep := fun h => hp (h ▸ List.mem_cons_self _ _)
    have hrest : sep ∉ rest := fun h => hp (List.mem_cons_of_mem _ h)
    simp only [List.cons_append, splitOnChar, List.append_eq]
    rw [ih hrest]
    simp [hc]

theorem splitOnChar_joinChar (sep : Char) (pieces : List (List Char))
    (hne : pieces ≠ []) (hmem : ∀ p ∈ pieces, sep ∉ p) :
    splitOnChar sep (joinChar sep pieces) = pieces := by
  induction pieces with
  | nil => exact absurd rfl hne
  | cons p rest ih =>
    rcases rest with _ | ⟨q, rest2⟩
    · simpa [joinChar] using splitOnChar_of_not_mem sep p (hmem p (List.mem_cons_self _ _))
    · have hp : sep ∉ p := hmem p (List.mem_cons_self _ _)
      have hrest : ∀ x ∈ q :: rest2, sep ∉ x := fun x hx => hmem x (List.mem_cons_of_mem _ hx)
      simp only [joinChar, splitOnChar_append_sep sep p _ hp]
      rw [ih (by simp) hrest]

theorem joinChar_head?_of_ne_nil (sep : Char) (p : List Char) (ps : List (List Char))
    (hp : p ≠ []) : (joinChar sep (p :: ps)).head? = p.head? := by
  rcases ps with _ | ⟨q, rest⟩
  · simp [joinChar]
  · simp only [joinChar]
    rcases p with _ | ⟨c, cs⟩
    · exact absurd rfl hp
    · simp

theorem joinChar_ne_nil (sep : Char) (p : List Char) (ps : List (List Char))
    (hp : p ≠ []) : joinChar sep (p :: ps) ≠ [] := by
  rcases ps with _ | ⟨q, rest⟩
  · simpa [joinChar] using hp
  · simp only [joinChar]
    rcases p with _ | ⟨c, cs⟩
    · exact absurd rfl hp
    · simp

theorem dropWhile_dropWhile_self {α : Type} (p : α → Bool) (l : List α) :
    (l.dropWhile p).dropWhile p = l.dropWhile p := by
  induction l with
  | nil => simp
  | cons c rest ih =>
    by_cases hc : p c
    · simp [List.dropWhile_cons, hc, ih]
    · simp [List.dropWhile_cons, hc]

theorem dropWhile_eq_self_of_prefix {α : Type} (p : α → Bool) (x y : List α)
    (hx : x.dropWhile p = x) (hpre : y <+: x) : y.dropWhile p = y := by
  rcases y with _ | ⟨c, y2⟩
  · simp
  · rcases hpre with ⟨t, ht⟩
    have hc : ¬p c := by
      intro hpc
      rw [← ht] at hx
      rw [List.cons_append, List.dropWhile_cons, if_pos hpc] at hx
      have hsub : List.Sublist ((y2 ++ t).dropWhile p) (y2 ++ t) := List.dropWhile_sublist p
      have := hsub.length_le
      have hlen := congrArg List.length hx
      simp only [List.length_cons] at hlen
      omega
    simp [List.dropWhile_cons, hc]

theorem trimRight_prefix (p : Char → Bool) (l : List Char) :
    ((l.reverse.dropWhile p).reverse : List Char) <+: l := by
  have hs : l.reverse.dropWhile p <:+ l.reverse := List.dropWhile_suffix p
  have := List.reverse_prefix.mpr hs
  simpa using this

theorem mem_of_mem_jsTrim (x : Char) (s : List Char) (hx : x ∈ jsTrim s) : x ∈ s := by
  unfold jsTrim at hx
  rw [List.mem_reverse] at hx
  have hsub1 : List.Sublist ((s.dropWhile jsWhitespace).reverse.dropWhile jsWhitespace)
      (s.dropWhile jsWhitespace).reverse := List.dropWhile_sublist jsWhitespace
  have h1 := hsub1.mem hx
  rw [List.mem_reverse] at h1
  have hsub2 : List.Sublist (s.dropWhile jsWhitespace) s := List.dropWhile_sublist jsWhitespace
  exact hsub2.mem h1

theorem jsTrim_idem (s : List Char) : jsTrim (jsTrim s) = jsTrim s := by
  unfold jsTrim
  have step1 :
      ((((s.dropWhile jsWhitespace).reverse.dropWhile jsWhitespace).reverse).dropWhile
        jsWhitespace) =
      ((s.dropWhile jsWhitespace).reverse.dropWhile jsWhitespace).reverse := by
    refine dropWhile_eq_self_of_prefix jsWhitespace (s.dropWhile jsWhitespace) _ ?_ ?_
    · exact dropWhile_dropWhile_self jsWhitespace s
    · exact trimRight_prefix jsWhitespace (s.dropWhile jsWhitespace)
  rw [step1, List.reverse_reverse, dropWhile_dropWhile_self]

/-! ### `normalizeEntryPath` / `toSegments`
(`zig-worker.ts` lines 369–390; `runner-worker.ts` lines 253–274 — identical code). -/

/-- `DEFAULT_ENTRY_FILENAME = 'main.zig'`. -/
def DEFAULT_ENTRY_FILENAME : List Char := "main.zig".toList

/-- `LEGACY_APP_PREFIX = '/app'` (the source constant, under a shorter
identifier; value unchanged). -/
def legacyAppChars : List Char := "/app".toList

/-- The filter predicate used on path segments:
`segment.length > 0 && segment !== '.' && segment !== '..'`. -/
def keepSegment (seg : List Char) : Bool :=
  decide (0 < seg.length) && decide (seg ≠ ['.']) && decide (seg ≠ ['.', '.'])

/-- The segment list computed inside `normalizeEntryPath`: trim, convert
backslashes to slashes, strip the legacy `/app` prefix, strip leading
slashes, split on `/`, trim each segment, and drop empty/`.`/`..` segments. -/
def normalizeSegments (path : Option (List Char)) : List (List Char) :=
  let trimmed := (jsTrim (path.getD [])).map fun c => if c = '\\' then '/' else c
  let withoutLegacy :=
    if (legacyAppChars ++ ['/']).isPrefixOf trimmed then
      trimmed.drop (legacyAppChars.length + 1)
    else if legacyAppChars.isPrefixOf trimmed then
      trimmed.drop legacyAppChars.length
    else trimmed
  let cleaned := withoutLegacy.dropWhile fun c => c = '/'
  ((splitOnChar '/' cleaned).map jsTrim).filter keepSegment

/-- `normalizeEntryPath` (`zig-worker.ts:369`): join the normalized segments
with `/`, falling back to `DEFAULT_ENTRY_FILENAME` when empty. -/
def normalizeEntryPath (path : Option (List Char)) : List Char :=
  let normalized := joinChar '/' (normalizeSegments path)
  if 0 < normalized.length then normalized else DEFAULT_ENTRY_FILENAME

/-- `toSegments` (`zig-worker.ts:385`): split on `/`, trim segments, keep
nonempty segments other than `.` (note: `..` is *not* filtered here). -/
def toSegments (path : List Char) : List (List Char) :=
  ((splitOnChar '/' path).map jsTrim).filter fun seg =>
    decide (0 < seg.length) && decide (seg ≠ ['.'])

example : normalizeEntryPath (some "/app/src/../main.zig".toList) = "src/main.zig".toList := by
  decide

theorem keepSegment_iff (seg : List Char) :
    keepSegment seg = true ↔ seg ≠ [] ∧ seg ≠ ['.'] ∧ seg ≠ ['.', '.'] := by
  unfold keepSegment
  simp [List.length_pos, and_assoc]

theorem normalizeSegments_sound (p : Option (List Char)) :
    ∀ seg ∈ normalizeSegments p,
      (seg ≠ [] ∧ seg ≠ ['.'] ∧ seg ≠ ['.', '.']) ∧ '/' ∉ seg ∧ jsTrim seg = seg := by
  intro seg hseg
  unfold normalizeSegments at hseg
  simp only [List.mem_filter, List.mem_map] at hseg
  obtain ⟨⟨piece, hpiece, htrim⟩, hkeep⟩ := hseg
  refine ⟨(keepSegment_iff seg).mp hkeep, ?_, ?_⟩
  · intro hmem
    exact not_mem_of_mem_splitOnChar '/' _ piece hpiece (mem_of_mem_jsTrim '/' piece (htrim ▸ hmem))
  · rw [← htrim, jsTrim_idem]

theorem normalizeEntryPath_eq (p : Option (List Char)) :
    normalizeEntryPath p =
      if normalizeSegments p = [] then DEFAULT_ENTRY_FILENAME
      else joinChar '/' (normalizeSegments p) := by
  unfold normalizeEntryPath
  rcases h : normalizeSegments p with _ | ⟨first, rest⟩
  · simp [joinChar]
  · have hfirst : first ≠ [] :=
      ((normalizeSegments_sound p first (by rw [h]; exact List.mem_cons_self _ _)).1).1
    have hne : joinChar '/' (first :: rest) ≠ [] := joinChar_ne_nil '/' first rest hfirst
    simp [List.length_pos, hne]

theorem normalizeEntryPath_ne_nil (p : Option (List Char)) : normalizeEntryPath p ≠ [] := by
  rw [normalizeEntryPath_eq]
  rcases h : normalizeSegments p with _ | ⟨first, rest⟩
  · simp [DEFAULT_ENTRY_FILENAME]
  · have hfirst : first ≠ [] :=
      ((normalizeSegments_sound p first (by rw [h]; exact List.mem_cons_self _ _)).1).1
    simpa using joinChar_ne_nil '/' first rest hfirst

theorem splitOnChar_normalizeEntryPath (p : Option (List Char)) :
    splitOnChar '/' (normalizeEntryPath p) =
      if normalizeSegments p = [] then [DEFAULT_ENTRY_FILENAME] else normalizeSegments p := by
  rw [normalizeEntryPath_eq]
  rcases h : normalizeSegments p with _ | ⟨first, rest⟩
  · simp only [if_pos rfl]
    decide
  · simp only [if_neg (by simp : first :: rest ≠ [])]
    refine splitOnChar_joinChar '/' (first :: rest) (by simp) ?_
    intro x hx
    exact (normalizeSegments_sound p x (by rw [h]; exact hx)).2.1

theorem normalizeEntryPath_head_ne_slash (p : Option (List Char)) :
    (normalizeEntryPath p).head? ≠ some '/' := by
  rw [normalizeEntryPath_eq]
  rcases h : normalizeSegments p with _ | ⟨first, rest⟩
  · decide
  · have hsound := normalizeSegments_sound p first (by rw [h]; exact List.mem_cons_self _ _)
    have hfirst : first ≠ [] := hsound.1.1
    rw [if_neg (by simp : first :: rest ≠ [])]
    rw [joinChar_head?_of_ne_nil '/' first rest hfirst]
    rcases first with _ | ⟨c, cs⟩
    · exact absurd rfl hfirst
    · intro hcontra
      simp only [List.head?_cons, Option.some.injEq] at hcontra
      exact hsound.2.1 (hcontra ▸ List.mem_cons_self _ _)

theorem toSegments_normalizeEntryPath (p : Option (List Char)) :
    toSegments (normalizeEntryPath p) =
      if normalizeSegments p = [] then [DEFAULT_ENTRY_FILENAME] else normalizeSegments p := by
  unfold toSegments
  rw [splitOnChar_normalizeEntryPath]
  rcases h : normalizeSegments p with _ | ⟨first, rest⟩
  · simp only [if_pos rfl]
    decide
  · simp only [if_neg (by simp : first :: rest ≠ [])]
    have hmap : (first :: rest).map jsTrim = first :: rest := by
      have : ∀ x ∈ first :: rest, jsTrim x = x := by
        intro x hx
        exact (normalizeSegments_sound p x (by rw [h]; exact hx)).2.2
      calc (first :: rest).map jsTrim = (first :: rest).map id := List.map_congr_left this
        _ = first :: rest := List.map_id _
    rw [hmap]
    refine List.filter_eq_self.mpr ?_
    intro a ha
    have hsound := normalizeSegments_sound p a (by rw [h]; exact ha)
    simp [List.length_pos, hsound.1.1, hsound.1.2.1]

theorem toSegments_normalizeEntryPath_ne_nil (p : Option (List Char)) :
    toSegments (normalizeEntryPath p) ≠ [] := by
  rw [toSegments_normalizeEntryPath]
  rcases h : normalizeSegments p with _ | ⟨first, rest⟩ <;> simp

theorem joinChar_toSegments_normalizeEntryPath (p : Option (List Char)) :
    joinChar '/' (toSegments (normalizeEntryPath p)) = normalizeEntryPath p := by
  rw [toSegments_normalizeEntryPath, normalizeEntryPath_eq]
  rcases h : normalizeSegments p with _ | ⟨first, rest⟩ <;> simp [joinChar]

/-- C3: for every input path string, `normalizeEntryPath` returns a nonempty
relative (no leading `/`) forward-slash-separated path whose segments are
all nonempty and different from `.` and `..`; when normalization yields no
segments the result is the default entry filename `main.zig`; and
`/app/src/../main.zig` normalizes to `src/main.zig`. -/
theorem C3_normalizeEntryPath_wellFormed (p : List Char) :
    normalizeEntryPath (some p) ≠ [] ∧
    (normalizeEntryPath (some p)).head? ≠ some '/' ∧
    (∀ seg ∈ splitOnChar '/' (normalizeEntryPath (some p)),
        seg ≠ [] ∧ seg ≠ ['.'] ∧ seg ≠ ['.', '.']) ∧
    (normalizeSegments (some p) = [] →
        normalizeEntryPath (some p) = DEFAULT_ENTRY_FILENAME) ∧
    normalizeEntryPath (some "/app/src/../main.zig".toList) = "src/main.zig".toList := by
  refine ⟨normalizeEntryPath_ne_nil _, normalizeEntryPath_head_ne_slash _, ?_, ?_, by decide⟩
  · intro seg hseg
    rw [splitOnChar_normalizeEntryPath] at hseg
    rcases h : normalizeSegments (some p) with _ | ⟨first, rest⟩
    · rw [h, if_pos rfl] at hseg
      have : seg = DEFAULT_ENTRY_FILENAME := by simpa using hseg
      subst this
      refine ⟨by decide, by decide, by decide⟩
    · rw [h, if_neg (by simp)] at hseg
      exact (normalizeSegments_sound (some p) seg (by rw [h]; exact hseg)).1
  · intro h
    rw [normalizeEntryPath_eq, if_pos h]

theorem C3_witness :
    normalizeSegments (some "  /app/ ".toList) = [] ∧
    normalizeEntryPath (some "  /app/ ".toList) = DEFAULT_ENTRY_FILENAME := by
  refine ⟨by decide, ?_⟩
  exact (C3_normalizeEntryPath_wellFormed "  /app/ ".toList).2.2.2.1 (by decide)

/-! ### Virtual directory tree (`@bjorn3/browser_wasi_shim` `Directory`/`File`
as used by `hydrateAppDirectory`, `writeFile`, `ensureDirectory`,
`getFileAtPath` in `zig-worker.ts` lines 296–367 and the identical code in
`runner-worker.ts`).  A JS `Map` is modelled as an insertion-ordered
association list with unique keys. -/

inductive FsEntry where
  | file (data : List Nat) (readonly : Bool)
  | dir (contents : List (List Char × FsEntry))

instance : Inhabited FsEntry := ⟨.dir []⟩

abbrev DirContents := List (List Char × FsEntry)

/-- JS `map.get(key)`. -/
def mapGet : DirContents → List Char → Option FsEntry
  | [], _ => none
  | (k, v) :: rest, key => if k = key then some v else mapGet rest key

/-- JS `map.set(key, value)`: replace in place if the key exists, otherwise
append at the end. -/
def mapSet : DirContents → List Char → FsEntry → DirContents
  | [], key, value => [(key, value)]
  | (k, v) :: rest, key, value =>
    if k = key then (k, value) :: rest else (k, v) :: mapSet rest key value

/-- JS `map.delete(key)` (the map has unique keys, so deleting the first
match is exact). -/
def mapDelete : DirContents → List Char → DirContents
  | [], _ => []
  | (k, v) :: rest, key => if k = key then rest else (k, v) :: mapDelete rest key

/-- UTF-8 encoding of one scalar value (`TextEncoder.prototype.encode`). -/
def utf8EncodeChar (c : Char) : List Nat :=
  let n := c.toNat
  if n < 0x80 then [n]
  else if n < 0x800 then [0xC0 + n / 64, 0x80 + n % 64]
  else if n < 0x10000 then [0xE0 + n / 4096, 0x80 + n / 64 % 64, 0x80 + n % 64]
  else [0xF0 + n / 262144, 0x80 + n / 4096 % 64, 0x80 + n / 64 % 64, 0x80 + n % 64]

/-- `textEncoder.encode(contents)`. -/
def utf8Encode (s : List Char) : List Nat := (s.map utf8EncodeChar).flatten

/-- `writeFile` + `ensureDirectory` fused into one structural recursion on
the segment list: all but the last segment walk/create directories —
descending into an existing subdirectory, replacing an existing same-named
file (`delete` + fresh `Map`), or creating a fresh subdirectory — and the
last segment is bound to a `File` via `map.set`. -/
def writeFileAux : DirContents → List (List Char) → FsEntry → DirContents
  | contents, [], _ => contents
  | contents, [filename], payload => mapSet contents filename payload
  | contents, segment :: seg2 :: rest, payload =>
    match mapGet contents segment with
    | some (.dir sub) =>
      mapSet contents segment (.dir (writeFileAux sub (seg2 :: rest) payload))
    | some (.file _ _) =>
      mapSet (mapDelete contents segment) segment
        (.dir (writeFileAux [] (seg2 :: rest) payload))
    | none => mapSet contents segment (.dir (writeFileAux [] (seg2 :: rest) payload))

/-- `writeFile(root, relativePath, contents, readOnly)` (`zig-worker.ts:310`). -/
def writeFile (root : DirContents) (relativePath contents : List Char)
    (readOnly : Bool) : DirContents :=
  writeFileAux root (toSegments relativePath) (.file (utf8Encode contents) readOnly)

/-- `PlaygroundFilePayload` (`worker-types`): `path` and `contents` are
strings that the hydration code defends against being absent (`file.path ||
''`, `file.contents ?? ''`, `Boolean(file.readOnly)`), so all three fields
are modelled as optional. -/
structure PlaygroundFilePayload where
  path : Option (List Char)
  contents : Option (List Char)
  readOnly : Option Bool
  deriving DecidableEq

/-- One step of the `hydrateAppDirectory` loop (`zig-worker.ts:296`). -/
def hydrateStep (directory : DirContents) (file : PlaygroundFilePayload) : DirContents :=
  let relativePath := normalizeEntryPath (some (file.path.getD []))
  if relativePath = [] then directory
  else writeFile directory relativePath (file.contents.getD []) (file.readOnly.getD false)

/-- `hydrateAppDirectory(files)`: fold the per-file write over an initially
empty root directory. -/
def hydrateAppDirectory (files : List PlaygroundFilePayload) : DirContents :=
  files.foldl hydrateStep []

/-- `getFileAtPath` traversal core (`zig-worker.ts:348`): walk the segments;
the last segment must resolve to a `File`, earlier ones to directories. -/
def getFileAux : DirContents → List (List Char) → Option (List Nat × Bool)
  | _, [] => none
  | contents, segment :: rest =>
    match mapGet contents segment with
    | none => none
    | some entry =>
      match rest with
      | [] =>
        match entry with
        | .file data readonly => some (data, readonly)
        | .dir _ => none
      | _ :: _ =>
        match entry with
        | .dir sub => getFileAux sub rest
        | .file _ _ => none

/-- `getFileAtPath(root, relativePath)`. -/
def getFileAtPath (root : DirContents) (relativePath : List Char) :
    Option (List Nat × Bool) :=
  getFileAux root (toSegments relativePath)

/-- The normalized path of a file payload, as computed inside
`hydrateAppDirectory`. -/
def normPath (f : PlaygroundFilePayload) : List Char :=
  normalizeEntryPath (some (f.path.getD []))

/-- The segment list of a payload's normalized path. -/
def normSegs (f : PlaygroundFilePayload) : List (List Char) :=
  toSegments (normPath f)

theorem mapGet_mapSet_self (m : DirContents) (k : List Char) (v : FsEntry) :
    mapGet (mapSet m k v) k = some v := by
  induction m with
  | nil => simp [mapSet, mapGet]
  | cons e rest ih =>
    obtain ⟨k1, v1⟩ := e
    by_cases h : k1 = k
    · simp [mapSet, mapGet, h]
    · simp [mapSet, mapGet, h, ih]

theorem mapGet_mapSet_ne (m : DirContents) (k key : List Char) (v : FsEntry)
    (h : key ≠ k) : mapGet (mapSet m k v) key = mapGet m key := by
  induction m with
  | nil => simp [mapSet, mapGet, Ne.symm h]
  | cons e rest ih =>
    obtain ⟨k1, v1⟩ := e
    by_cases h1 : k1 = k
    · subst h1
      simp [mapSet, mapGet, Ne.symm h]
    · simp only [mapSet, if_neg h1]
      by_cases h2 : k1 = key
      · simp [mapGet, h2]
      · simp [mapGet, h2, ih]

theorem mapGet_mapDelete_ne (m : DirContents) (k key : List Char)
    (h : key ≠ k) : mapGet (mapDelete m k) key = mapGet m key := by
  induction m with
  | nil => simp [mapDelete]
  | cons e rest ih =>
    obtain ⟨k1, v1⟩ := e
    by_cases h1 : k1 = k
    · subst h1
      simp [mapDelete, mapGet, Ne.symm h]
    · simp only [mapDelete, if_neg h1]
      by_cases h2 : k1 = key
      · simp [mapGet, h2]
      · simp [mapGet, h2, ih]

/-! Precise rewriting equations for `writeFileAux` and `getFileAux`. -/

theorem writeFileAux_single (m : DirContents) (filename : List Char) (payload : FsEntry) :
    writeFileAux m [filename] payload = mapSet m filename payload := rfl

theorem writeFileAux_step_dir (m : DirContents) (segment seg2 : List Char)
    (rest : List (List Char)) (payload : FsEntry) (sub : DirContents)
    (h : mapGet m segment = some (.dir sub)) :
    writeFileAux m (segment :: seg2 :: rest) payload =
      mapSet m segment (.dir (writeFileAux sub (seg2 :: rest) payload)) := by
  rw [writeFileAux, h]

theorem writeFileAux_step_file (m : DirContents) (segment seg2 : List Char)
    (rest : List (List Char)) (payload : FsEntry) (d : List Nat) (r : Bool)
    (h : mapGet m segment = some (.file d r)) :
    writeFileAux m (segment :: seg2 :: rest) payload =
      mapSet (mapDelete m segment) segment
        (.dir (writeFileAux [] (seg2 :: rest) payload)) := by
  rw [writeFileAux, h]

theorem writeFileAux_step_none (m : DirContents) (segment seg2 : List Char)
    (rest : List (List Char)) (payload : FsEntry)
    (h : mapGet m segment = none) :
    writeFileAux m (segment :: seg2 :: rest) payload =
      mapSet m segment (.dir (writeFileAux [] (seg2 :: rest) payload)) := by
  rw [writeFileAux, h]

theorem getFileAux_last_file (m : DirContents) (segment : List Char)
    (d : List Nat) (r : Bool) (h : mapGet m segment = some (.file d r)) :
    getFileAux m [segment] = some (d, r) := by
  rw [getFileAux, h]

theorem getFileAux_last_dir (m : DirContents) (segment : List Char)
    (sub : DirContents) (h : mapGet m segment = some (.dir sub)) :
    getFileAux m [segment] = none := by
  rw [getFileAux, h]

theorem getFileAux_cons_none (m : DirContents) (segment : List Char)
    (rest : List (List Char)) (h : mapGet m segment = none) :
    getFileAux m (segment :: rest) = none := by
  rw [getFileAux, h]

theorem getFileAux_step_dir (m : DirContents) (segment a2 : List Char)
    (restA : List (List Char)) (sub : DirContents)
    (h : mapGet m segment = some (.dir sub)) :
    getFileAux m (segment :: a2 :: restA) = getFileAux sub (a2 :: restA) := by
  rw [getFileAux, h]

theorem getFileAux_step_file (m : DirContents) (segment a2 : List Char)
    (restA : List (List Char)) (d : List Nat) (r : Bool)
    (h : mapGet m segment = some (.file d r)) :
    getFileAux m (segment :: a2 :: restA) = none := by
  rw [getFileAux, h]

theorem getFileAux_congr_head (X m : DirContents) (a : List Char)
    (restA : List (List Char)) (h : mapGet X a = mapGet m a) :
    getFileAux X (a :: restA) = getFileAux m (a :: restA) := by
  rw [getFileAux, getFileAux, h]

theorem getFileAux_nil (segs : List (List Char)) : getFileAux [] segs = none := by
  rcases segs with _ | ⟨s, rest⟩
  · rfl
  · rw [getFileAux_cons_none]
    rfl

theorem getFileAux_writeFileAux_self (segs : List (List Char)) :
    segs ≠ [] →
    ∀ (m : DirContents) (data : List Nat) (ro : Bool),
      getFileAux (writeFileAux m segs (.file data ro)) segs = some (data, ro) := by
  induction segs with
  | nil => intro h; exact absurd rfl h
  | cons s rest ih =>
    intro _ m data ro
    rcases rest with _ | ⟨s2, rest2⟩
    · rw [writeFileAux_single, getFileAux_last_file _ s data ro (mapGet_mapSet_self m s _)]
    · have step : ∀ sub : DirContents,
          getFileAux (writeFileAux sub (s2 :: rest2) (.file data ro)) (s2 :: rest2) =
            some (data, ro) := fun sub => ih (by simp) sub data ro
      rcases hget : mapGet m s with _ | entry
      · rw [writeFileAux_step_none m s s2 rest2 _ hget,
          getFileAux_step_dir _ s s2 rest2 _ (mapGet_mapSet_self m s _), step]
      · rcases entry with ⟨d, r⟩ | sub
        · rw [writeFileAux_step_file m s s2 rest2 _ d r hget,
            getFileAux_step_dir _ s s2 rest2 _ (mapGet_mapSet_self (mapDelete m s) s _),
            step]
        · rw [writeFileAux_step_dir m s s2 rest2 _ sub hget,
            getFileAux_step_dir _ s s2 rest2 _ (mapGet_mapSet_self m s _), step]

theorem getFileAux_writeFileAux_frame (segsB : List (List Char)) :
    ∀ (segsA : List (List Char)) (m : DirContents) (payload : FsEntry),
      segsA ≠ [] → segsB ≠ [] →
      ¬(segsA <+: segsB) → ¬(segsB <+: segsA) →
      getFileAux (writeFileAux m segsB payload) segsA = getFileAux m segsA := by
  induction segsB with
  | nil => intro _ _ _ _ hB _ _; exact absurd rfl hB
  | cons b restB ih =>
    intro segsA m payload hA _ hAB hBA
    rcases segsA with _ | ⟨a, restA⟩
    · exact absurd rfl hA
    by_cases hab : a = b
    · subst hab
      rcases restB with _ | ⟨b2, restB2⟩
      · rcases restA with _ | ⟨a2, restA2⟩
        · exact absurd (List.prefix_refl _) hAB
        · exact absurd ⟨a2 :: restA2, rfl⟩ hBA
      · rcases restA with _ | ⟨a2, restA2⟩
        · exact absurd ⟨b2 :: restB2, rfl⟩ hAB
        · have hAB2 : ¬((a2 :: restA2) <+: (b2 :: restB2)) := fun hcon =>
            hAB (List.cons_prefix_cons.mpr ⟨rfl, hcon⟩)
          have hBA2 : ¬((b2 :: restB2) <+: (a2 :: restA2)) := fun hcon =>
            hBA (List.cons_prefix_cons.mpr ⟨rfl, hcon⟩)
          have hrec : ∀ sub : DirContents,
              getFileAux (writeFileAux sub (b2 :: restB2) payload) (a2 :: restA2) =
                getFileAux sub (a2 :: restA2) :=
            fun sub => ih (a2 :: restA2) sub payload (by simp) (by simp) hAB2 hBA2
          rcases hget : mapGet m a with _ | entry
          · rw [writeFileAux_step_none m a b2 restB2 _ hget,
              getFileAux_step_dir _ a a2 restA2 _ (mapGet_mapSet_self m a _),
              hrec [], getFileAux_nil, getFileAux_cons_none m a _ hget]
          · rcases entry with ⟨d, r⟩ | sub
            · rw [writeFileAux_step_file m a b2 restB2 _ d r hget,
                getFileAux_step_dir _ a a2 restA2 _
                  (mapGet_mapSet_self (mapDelete m a) a _),
                hrec [], getFileAux_nil, getFileAux_step_file m a a2 restA2 d r hget]
            · rw [writeFileAux_step_dir m a b2 restB2 _ sub hget,
                getFileAux_step_dir _ a a2 restA2 _ (mapGet_mapSet_self m a _),
                hrec sub, getFileAux_step_dir m a a2 restA2 sub hget]
    · have hmain : ∀ X : DirContents, mapGet X a = mapGet m a →
          getFileAux X (a :: restA) = getFileAux m (a :: restA) :=
        fun X h => getFileAux_congr_head X m a restA h
      rcases restB with _ | ⟨b2, restB2⟩
      · rw [writeFileAux_single]
        exact hmain _ (mapGet_mapSet_ne m b a payload hab)
      · rcases hget : mapGet m b with _ | entry
        · rw [writeFileAux_step_none m b b2 restB2 _ hget]
          exact hmain _ (mapGet_mapSet_ne m b a _ hab)
        · rcases entry with ⟨d, r⟩ | sub
          · rw [writeFileAux_step_file m b b2 restB2 _ d r hget]
            refine hmain _ ?_
            rw [mapGet_mapSet_ne _ b a _ hab, mapGet_mapDelete_ne m b a hab]
          · rw [writeFileAux_step_dir m b b2 restB2 _ sub hget]
            exact hmain _ (mapGet_mapSet_ne m b a _ hab)

theorem mem_of_getLast?_eq_some {α : Type} {l : List α} {a : α}
    (h : l.getLast? = some a) : a ∈ l := by
  have hx : a ∈ l.getLast? := by rw [Option.mem_def]; exact h
  obtain ⟨hne, hEq⟩ := List.mem_getLast?_eq_getLast hx
  rw [hEq]
  exact List.getLast_mem hne

theorem hydrateStep_eq_writeFile (d : DirContents) (f : PlaygroundFilePayload) :
    hydrateStep d f =
      writeFile d (normPath f) (f.contents.getD []) (f.readOnly.getD false) := by
  simp only [hydrateStep, normPath]
  rw [if_neg (normalizeEntryPath_ne_nil _)]

/-- The heart of C4/C5: folding the hydration step over a file list, the
final content at a fixed segment list `p` is that of the *last* entry whose
normalized segments equal `p`, provided every entry is either at `p` or at
a path neither prefixing nor extending `p`. -/
theorem getFileAux_hydrate_foldl (p : List (List Char)) (hp : p ≠ [])
    (files : List PlaygroundFilePayload) :
    ∀ d : DirContents,
      (∀ f ∈ files, normSegs f = p ∨ (¬(normSegs f <+: p) ∧ ¬(p <+: normSegs f))) →
      getFileAux (files.foldl hydrateStep d) p =
        match (files.filter fun f => decide (normSegs f = p)).getLast? with
        | some f => some (utf8Encode (f.contents.getD []), f.readOnly.getD false)
        | none => getFileAux d p := by
  induction files with
  | nil => intro d _; simp
  | cons f rest ih =>
    intro d hall
    have hf := hall f (List.mem_cons_self _ _)
    have hrest : ∀ g ∈ rest, normSegs g = p ∨ (¬(normSegs g <+: p) ∧ ¬(p <+: normSegs g)) :=
      fun g hg => hall g (List.mem_cons_of_mem _ hg)
    rw [List.foldl_cons, ih (hydrateStep d f) hrest]
    rcases hf with hfp | hfrel
    · have hwrite : getFileAux (hydrateStep d f) p =
          some (utf8Encode (f.contents.getD []), f.readOnly.getD false) := by
        rw [hydrateStep_eq_writeFile]
        unfold writeFile
        have : toSegments (normPath f) = p := hfp
        rw [this]
        exact getFileAux_writeFileAux_self p hp d _ _
      have hpred : (fun g => decide (normSegs g = p)) f = true := by
        simp [hfp]
      rw [List.filter_cons, if_pos hpred]
      rcases rest.filter fun g => decide (normSegs g = p) with _ | ⟨g0, gs⟩
      · exact hwrite
      · rw [List.getLast?_cons_cons,
          List.getLast?_eq_getLast_of_ne_nil
            (by simp : (g0 :: gs : List PlaygroundFilePayload) ≠ [])]
    · have hne : normSegs f ≠ p := fun hEq => hfrel.1 (by rw [hEq])
      rw [List.filter_cons, if_neg (by simp [hne])]
      have hframe : getFileAux (hydrateStep d f) p = getFileAux d p := by
        rw [hydrateStep_eq_writeFile]
        unfold writeFile
        exact getFileAux_writeFileAux_frame (toSegments (normPath f)) p d _
          hp (toSegments_normalizeEntryPath_ne_nil _) hfrel.2 hfrel.1
      rcases (rest.filter fun g => decide (normSegs g = p)).getLast? with _ | g
      · exact hframe
      · rfl

set_option maxHeartbeats 1000000 in
/-- C4 (amended): if the normalized paths of the entries are pairwise
non-prefix-related as segment lists (which implies pairwise distinct),
hydrating and then reading back each entry's normalized path yields exactly
the UTF-8 bytes of that entry's contents. -/
theorem C4_hydrate_readback (files : List PlaygroundFilePayload)
    (h : files.Pairwise fun f g => ¬(normSegs f <+: normSegs g) ∧ ¬(normSegs g <+: normSegs f)) :
    ∀ f ∈ files,
      getFileAtPath (hydrateAppDirectory files) (normPath f) =
        some (utf8Encode (f.contents.getD []), f.readOnly.getD false) := by
  intro f hf
  have hsymm : Symmetric fun f g : PlaygroundFilePayload =>
      ¬(normSegs f <+: normSegs g) ∧ ¬(normSegs g <+: normSegs f) :=
    fun _ _ hr => ⟨hr.2, hr.1⟩
  have hp : normSegs f ≠ [] := toSegments_normalizeEntryPath_ne_nil _
  have hall : ∀ g ∈ files, normSegs g = normSegs f ∨
      (¬(normSegs g <+: normSegs f) ∧ ¬(normSegs f <+: normSegs g)) := by
    intro g hg
    by_cases hval : g = f
    · exact Or.inl (congrArg normSegs hval)
    · exact Or.inr (h.forall hsymm hg hf hval)
  have hmain := getFileAux_hydrate_foldl (normSegs f) hp files [] hall
  have hflt : ∀ x ∈ files.filter fun g => decide (normSegs g = normSegs f), x = f := by
    intro x hx
    rw [List.mem_filter] at hx
    by_cases hval : x = f
    · exact hval
    · have hrel := h.forall hsymm hx.1 hf hval
      have hxf : normSegs x = normSegs f := of_decide_eq_true hx.2
      exact absurd (hxf ▸ List.prefix_refl (normSegs x)) hrel.1
  have hfmem : f ∈ files.filter fun g => decide (normSegs g = normSegs f) :=
    List.mem_filter.mpr ⟨hf, by simp⟩
  have hne : (files.filter fun g => decide (normSegs g = normSegs f)) ≠ [] :=
    List.ne_nil_of_mem hfmem
  rcases hlast : (files.filter fun g => decide (normSegs g = normSegs f)).getLast? with _ | x
  · rw [List.getLast?_eq_none_iff] at hlast
    exact absurd hlast hne
  · have hx : x = f := hflt x (mem_of_getLast?_eq_some hlast)
    rw [hx] at hlast
    rw [hlast] at hmain
    show getFileAux (files.foldl hydrateStep []) (normSegs f) = _
    exact hmain

def entryA : PlaygroundFilePayload := ⟨some "a".toList, some "x".toList, none⟩

def entryAB : PlaygroundFilePayload := ⟨some "a/b".toList, some "y".toList, none⟩

/-- C4 counterexample: the two entries `a` and `a/b` have distinct (indeed
pairwise distinct) normalized paths, yet after hydration the path `a` holds
a *directory* (creating `a/b` replaced the file `a`), so reading `a` back
fails instead of returning the UTF-8 bytes of `"x"`. -/
theorem C4_counterexample :
    normPath entryA ≠ normPath entryAB ∧
    getFileAtPath (hydrateAppDirectory [entryA, entryAB]) (normPath entryA) = none := by
  constructor
  · decide
  · decide

def entryMain : PlaygroundFilePayload :=
  ⟨some "main.zig".toList, some "hello".toList, none⟩

def entryUtil : PlaygroundFilePayload :=
  ⟨some "src/util.zig".toList, some "world".toList, some true⟩

theorem C4_witness :
    getFileAtPath (hydrateAppDirectory [entryMain, entryUtil]) (normPath entryMain) =
      some (utf8Encode "hello".toList, false) :=
  C4_hydrate_readback [entryMain, entryUtil] (by decide) entryMain (by decide)

mutual
/-- The JS `Map` invariant of the modelled tree: within every directory the
names are unique, so a file and a directory can never share a name. -/
def fsWFb : FsEntry → Bool
  | .file _ _ => true
  | .dir contents => contentsWFb contents && decide (contents.map Prod.fst).Nodup

def contentsWFb : DirContents → Bool
  | [] => true
  | e :: rest => fsWFb e.2 && contentsWFb rest
end

theorem fsWFb_of_mapGet (m : DirContents) (key : List Char) (e : FsEntry) :
    contentsWFb m = true → mapGet m key = some e → fsWFb e = true := by
  induction m with
  | nil => intro _ h; simp [mapGet] at h
  | cons x rest ih =>
    obtain ⟨k1, v1⟩ := x
    intro hm h
    rw [contentsWFb, Bool.and_eq_true] at hm
    rw [mapGet] at h
    by_cases hk : k1 = key
    · rw [if_pos hk] at h
      cases h
      exact hm.1
    · rw [if_neg hk] at h
      exact ih hm.2 h

theorem contentsWFb_mapSet (m : DirContents) (k : List Char) (v : FsEntry) :
    contentsWFb m = true → fsWFb v = true → contentsWFb (mapSet m k v) = true := by
  induction m with
  | nil => intro _ hv; simp [mapSet, contentsWFb, hv]
  | cons x rest ih =>
    obtain ⟨k1, v1⟩ := x
    intro hm hv
    rw [contentsWFb, Bool.and_eq_true] at hm
    by_cases hk : k1 = k
    · rw [mapSet, if_pos hk, contentsWFb, Bool.and_eq_true]
      exact ⟨hv, hm.2⟩
    · rw [mapSet, if_neg hk, contentsWFb, Bool.and_eq_true]
      exact ⟨hm.1, ih hm.2 hv⟩

theorem mem_keys_mapSet (m : DirContents) (k : List Char) (v : FsEntry) (x : List Char) :
    x ∈ (mapSet m k v).map Prod.fst → x ∈ m.map Prod.fst ∨ x = k := by
  induction m with
  | nil => intro h; simp [mapSet] at h; exact Or.inr h
  | cons e rest ih =>
    obtain ⟨k1, v1⟩ := e
    intro h
    by_cases hk : k1 = k
    · rw [mapSet, if_pos hk] at h
      exact Or.inl (by simpa using h)
    · rw [mapSet, if_neg hk] at h
      simp only [List.map_cons, List.mem_cons] at h
      rcases h with h | h
      · exact Or.inl (by simp [h])
      · rcases ih h with h2 | h2
        · exact Or.inl (by simp [h2])
        · exact Or.inr h2

theorem nodup_keys_mapSet (m : DirContents) (k : List Char) (v : FsEntry) :
    (m.map Prod.fst).Nodup → ((mapSet m k v).map Prod.fst).Nodup := by
  induction m with
  | nil => intro _; simp [mapSet]
  | cons e rest ih =>
    obtain ⟨k1, v1⟩ := e
    intro h
    simp only [List.map_cons, List.nodup_cons] at h
    by_cases hk : k1 = k
    · rw [mapSet, if_pos hk]
      simp only [List.map_cons, List.nodup_cons]
      exact h
    · rw [mapSet, if_neg hk]
      simp only [List.map_cons, List.nodup_cons]
      refine ⟨?_, ih h.2⟩
      intro hmem
      rcases mem_keys_mapSet rest k v k1 hmem with h2 | h2
      · exact h.1 h2
      · exact hk h2

theorem keys_mapDelete_sublist (m : DirContents) (k : List Char) :
    List.Sublist ((mapDelete m k).map Prod.fst) (m.map Prod.fst) := by
  induction m with
  | nil => simp [mapDelete]
  | cons e rest ih =>
    obtain ⟨k1, v1⟩ := e
    by_cases hk : k1 = k
    · rw [mapDelete, if_pos hk]
      exact List.sublist_cons_self _ _
    · rw [mapDelete, if_neg hk]
      simp only [List.map_cons]
      exact ih.cons₂ k1

theorem contentsWFb_mapDelete (m : DirContents) (k : List Char) :
    contentsWFb m = true → contentsWFb (mapDelete m k) = true := by
  induction m with
  | nil => intro _; simp [mapDelete, contentsWFb]
  | cons e rest ih =>
    obtain ⟨k1, v1⟩ := e
    intro hm
    rw [contentsWFb, Bool.and_eq_true] at hm
    by_cases hk : k1 = k
    · rw [mapDelete, if_pos hk]
      exact hm.2
    · rw [mapDelete, if_neg hk, contentsWFb, Bool.and_eq_true]
      exact ⟨hm.1, ih hm.2⟩

theorem fsWFb_dir_iff (contents : DirContents) :
    fsWFb (.dir contents) = true ↔
      contentsWFb contents = true ∧ (contents.map Prod.fst).Nodup := by
  rw [fsWFb, Bool.and_eq_true, decide_eq_true_eq]

theorem fsWFb_mapSet_dir (m : DirContents) (k : List Char) (v : FsEntry)
    (hm : fsWFb (.dir m) = true) (hv : fsWFb v = true) :
    fsWFb (.dir (mapSet m k v)) = true := by
  rw [fsWFb_dir_iff] at hm ⊢
  exact ⟨contentsWFb_mapSet m k v hm.1 hv, nodup_keys_mapSet m k v hm.2⟩

theorem fsWFb_mapDelete_dir (m : DirContents) (k : List Char)
    (hm : fsWFb (.dir m) = true) : fsWFb (.dir (mapDelete m k)) = true := by
  rw [fsWFb_dir_iff] at hm ⊢
  exact ⟨contentsWFb_mapDelete m k hm.1, hm.2.sublist (keys_mapDelete_sublist m k)⟩

theorem fsWFb_writeFileAux (segs : List (List Char)) :
    ∀ (m : DirContents) (payload : FsEntry),
      fsWFb (.dir m) = true → fsWFb payload = true →
      fsWFb (.dir (writeFileAux m segs payload)) = true := by
  induction segs with
  | nil => intro m payload hm _; exact hm
  | cons s rest ih =>
    intro m payload hm hv
    rcases rest with _ | ⟨s2, rest2⟩
    · rw [writeFileAux_single]
      exact fsWFb_mapSet_dir m s payload hm hv
    · have hempty : fsWFb (.dir ([] : DirContents)) = true := by
        rw [fsWFb_dir_iff]
        exact ⟨rfl, List.nodup_nil⟩
      rcases hget : mapGet m s with _ | entry
      · rw [writeFileAux_step_none m s s2 rest2 _ hget]
        exact fsWFb_mapSet_dir m s _ hm (ih [] payload hempty hv)
      · rcases entry with ⟨d, r⟩ | sub
        · rw [writeFileAux_step_file m s s2 rest2 _ d r hget]
          exact fsWFb_mapSet_dir (mapDelete m s) s _ (fsWFb_mapDelete_dir m s hm)
            (ih [] payload hempty hv)
        · rw [writeFileAux_step_dir m s s2 rest2 _ sub hget]
          have hsub : fsWFb (.dir sub) = true :=
            fsWFb_of_mapGet m s _ ((fsWFb_dir_iff m).mp hm).1 hget
          exact fsWFb_mapSet_dir m s _ hm (ih sub payload hsub hv)

theorem fsWFb_hydrate_foldl (files : List PlaygroundFilePayload) :
    ∀ d : DirContents, fsWFb (.dir d) = true →
      fsWFb (.dir (files.foldl hydrateStep d)) = true := by
  induction files with
  | nil => intro d hd; exact hd
  | cons f rest ih =>
    intro d hd
    rw [List.foldl_cons]
    refine ih (hydrateStep d f) ?_
    rw [hydrateStep_eq_writeFile]
    unfold writeFile
    exact fsWFb_writeFileAux _ d _ hd rfl

theorem fsWFb_hydrateAppDirectory (files : List PlaygroundFilePayload) :
    fsWFb (.dir (hydrateAppDirectory files)) = true :=
  fsWFb_hydrate_foldl files [] (by rw [fsWFb_dir_iff]; exact ⟨rfl, List.nodup_nil⟩)

set_option maxHeartbeats 1000000 in
/-- C5 (amended): if two or more entries normalize to the same path `p` and
every other entry's normalized path neither strictly extends nor is a strict
prefix of `p` (segment-wise), then after hydration the unique node at `p` is
a file whose content is the UTF-8 encoding of the *last* entry normalizing
to `p` (last-write-wins); moreover the hydrated tree always has unique names
within every directory (a file and a directory never share a name). -/
theorem C5_hydrate_lastWriteWins (files : List PlaygroundFilePayload) (p : List Char)
    (htwo : 2 ≤ (files.filter fun f => decide (normPath f = p)).length)
    (hother : ∀ f ∈ files, normPath f = p ∨
      (¬(normSegs f <+: toSegments p) ∧ ¬(toSegments p <+: normSegs f))) :
    (∃ f, (files.filter fun f => decide (normPath f = p)).getLast? = some f ∧
        getFileAtPath (hydrateAppDirectory files) p =
          some (utf8Encode (f.contents.getD []), f.readOnly.getD false)) ∧
    fsWFb (.dir (hydrateAppDirectory files)) = true := by
  refine ⟨?_, fsWFb_hydrateAppDirectory files⟩
  have hne : (files.filter fun f => decide (normPath f = p)) ≠ [] := by
    intro h
    rw [h] at htwo
    simp at htwo
  obtain ⟨f0, hf0⟩ := List.exists_mem_of_ne_nil _ hne
  have hf0mem := List.mem_filter.mp hf0
  have hf0p : normPath f0 = p := of_decide_eq_true hf0mem.2
  have hpsegs : toSegments p ≠ [] := by
    rw [← hf0p]
    exact toSegments_normalizeEntryPath_ne_nil _
  have hcong : (files.filter fun f => decide (normPath f = p)) =
      (files.filter fun f => decide (normSegs f = toSegments p)) := by
    refine List.filter_congr ?_
    intro g hg
    rcases hother g hg with hgp | hgrel
    · simp [normSegs, hgp]
    · have h1 : normPath g ≠ p := fun hEq => hgrel.1 (by rw [normSegs, hEq])
      have h2 : normSegs g ≠ toSegments p := fun hEq => hgrel.1 (by rw [hEq])
      simp [h1, h2]
  have hall : ∀ f ∈ files, normSegs f = toSegments p ∨
      (¬(normSegs f <+: toSegments p) ∧ ¬(toSegments p <+: normSegs f)) := by
    intro g hg
    rcases hother g hg with hgp | hgrel
    · exact Or.inl (by rw [normSegs, hgp])
    · exact Or.inr hgrel
  have hmain := getFileAux_hydrate_foldl (toSegments p) hpsegs files [] hall
  rw [← hcong] at hmain
  rcases hlast : (files.filter fun f => decide (normPath f = p)).getLast? with _ | g
  · rw [List.getLast?_eq_none_iff] at hlast
    exact absurd hlast hne
  · refine ⟨g, rfl, ?_⟩
    rw [hlast] at hmain
    show getFileAux (files.foldl hydrateStep []) (toSegments p) = _
    exact hmain

def entryDupOne : PlaygroundFilePayload := ⟨some "a".toList, some "1".toList, none⟩

def entryDupTwo : PlaygroundFilePayload := ⟨some "a".toList, some "2".toList, none⟩

def entryDupDir : PlaygroundFilePayload := ⟨some "a/b".toList, some "3".toList, none⟩

/-- C5 counterexample: entries `a`, `a`, `a/b` — two entries normalize to
the same path `a`, yet after hydration *no* file node exists at `a` at all
(the later `a/b` write replaced the file with a directory), contradicting
the claim that exactly one file with the last writer's contents exists
there. -/
theorem C5_counterexample :
    normPath entryDupOne = normPath entryDupTwo ∧ entryDupOne ≠ entryDupTwo ∧
    getFileAtPath (hydrateAppDirectory [entryDupOne, entryDupTwo, entryDupDir])
      (normPath entryDupOne) = none := by
  refine ⟨by decide, by decide, by decide⟩

def lastWinsFiles : List PlaygroundFilePayload := [entryDupOne, entryDupTwo]

theorem C5_witness :
    (∃ f, (lastWinsFiles.filter fun f => decide (normPath f = "a".toList)).getLast? =
        some f ∧
      getFileAtPath (hydrateAppDirectory lastWinsFiles) "a".toList =
        some (utf8Encode (f.contents.getD []), f.readOnly.getD false)) ∧
    fsWFb (.dir (hydrateAppDirectory lastWinsFiles)) = true :=
  C5_hydrate_lastWriteWins lastWinsFiles "a".toList (by decide) (by decide)

/-! ### Request queue (`processQueue`, `zig-worker.ts:106–127` and the
identical `runner-worker.ts:110–131`).  The ghost field `executed` logs the
dispatched requests in dispatch order; `isBusy` models
`isCompiling`/`isRunning` and `queue` models
`compilationQueue`/`runQueue`. -/

structure WorkerQueueState (α : Type) where
  isBusy : Bool
  queue : List α
  executed : List α
  deriving DecidableEq

/-- `processQueue`: if busy, return unchanged; otherwise `pop()` the most
recently arrived request (the *end* of the array), clear all older pending
requests (`compilationQueue = []`) and dispatch the popped one. -/
def processQueue {α : Type} (s : WorkerQueueState α) : WorkerQueueState α :=
  if s.isBusy then s
  else
    match s.queue.getLast? with
    | none => s
    | some request => ⟨true, [], s.executed ++ [request]⟩

/-- Message arrival: `compilationQueue.push(payload); void processQueue()`. -/
def receiveRequest {α : Type} (s : WorkerQueueState α) (r : α) : WorkerQueueState α :=
  processQueue ⟨s.isBusy, s.queue ++ [r], s.executed⟩

/-- Completion of the in-flight request: the `finally` block clears the busy
flag and `processQueue` resumes with whatever queued up meanwhile. -/
def finishRequest {α : Type} (s : WorkerQueueState α) : WorkerQueueState α :=
  processQueue ⟨false, s.queue, s.executed⟩

theorem foldl_receiveRequest_busy {α : Type} (rs : List α) :
    ∀ (q ex : List α),
      rs.foldl receiveRequest ⟨true, q, ex⟩ = ⟨true, q ++ rs, ex⟩ := by
  induction rs with
  | nil => intro q ex; simp
  | cons r rest ih =>
    intro q ex
    rw [List.foldl_cons]
    have hstep : receiveRequest (⟨true, q, ex⟩ : WorkerQueueState α) r =
        ⟨true, q ++ [r], ex⟩ := by
      unfold receiveRequest processQueue
      simp
    rw [hstep, ih (q ++ [r]) ex]
    simp

/-- C1: starting Busy with `r0` in flight, `N = rs.length ≥ 1` requests
arriving while busy are only queued (nothing else executes — at most one
request is in flight); when the in-flight request finishes, exactly the most
recently arrived pending request `rs.getLast` is dispatched and all others
are discarded (queue empties); when that one finishes too the worker is
Idle, the pending list has drained to length 0, and the total number of
executions is 2 ≤ N + 1. -/
theorem C1_queue_lastRequestWins {α : Type} (r0 : α) (rs : List α) (h : rs ≠ []) :
    (rs.foldl receiveRequest ⟨true, [], [r0]⟩).queue = rs ∧
    (rs.foldl receiveRequest ⟨true, [], [r0]⟩).executed = [r0] ∧
    finishRequest (rs.foldl receiveRequest ⟨true, [], [r0]⟩) =
      ⟨true, [], [r0, rs.getLast h]⟩ ∧
    finishRequest (finishRequest (rs.foldl receiveRequest ⟨true, [], [r0]⟩)) =
      ⟨false, [], [r0, rs.getLast h]⟩ ∧
    (finishRequest (finishRequest
        (rs.foldl receiveRequest ⟨true, [], [r0]⟩))).executed.length ≤
      rs.length + 1 := by
  have hfold : rs.foldl receiveRequest ⟨true, [], [r0]⟩ = ⟨true, rs, [r0]⟩ := by
    rw [foldl_receiveRequest_busy rs [] [r0]]
    simp
  have hfin1 : finishRequest (⟨true, rs, [r0]⟩ : WorkerQueueState α) =
      ⟨true, [], [r0, rs.getLast h]⟩ := by
    unfold finishRequest processQueue
    simp only [List.getLast?_eq_getLast_of_ne_nil h]
    simp
  have hfin2 : finishRequest (⟨true, [], [r0, rs.getLast h]⟩ : WorkerQueueState α) =
      ⟨false, [], [r0, rs.getLast h]⟩ := by
    unfold finishRequest processQueue
    simp
  have hlen : 1 ≤ rs.length := List.length_pos.mpr h
  rw [hfold, hfin1, hfin2]
  refine ⟨rfl, rfl, rfl, rfl, ?_⟩
  simp only [List.length_cons, List.length_nil]
  omega

theorem C1_witness :
    (([1, 2, 3] : List Nat).foldl receiveRequest ⟨true, [], [0]⟩).queue = [1, 2, 3] ∧
    (([1, 2, 3] : List Nat).foldl receiveRequest ⟨true, [], [0]⟩).executed = [0] ∧
    finishRequest (([1, 2, 3] : List Nat).foldl receiveRequest ⟨true, [], [0]⟩) =
      ⟨true, [], [0, 3]⟩ ∧
    finishRequest (finishRequest
        (([1, 2, 3] : List Nat).foldl receiveRequest ⟨true, [], [0]⟩)) =
      ⟨false, [], [0, 3]⟩ ∧
    (finishRequest (finishRequest
        (([1, 2, 3] : List Nat).foldl receiveRequest ⟨true, [], [0]⟩))).executed.length ≤
      ([1, 2, 3] : List Nat).length + 1 :=
  C1_queue_lastRequestWins 0 [1, 2, 3] (by decide)

/-! ### Worker responses (`worker-types`) and the compile pipeline decision
logic (`runCompilation`, `zig-worker.ts:178–225`). -/

inductive ZigWorkerResponse where
  | compileSuccess (wasm : List Nat) (stdout stderr : String) (durationMs : Nat)
  | compileError (stdout stderr : String) (durationMs : Nat) (message : String)
  | fatalError (message : String)
  deriving DecidableEq

/-- `createCompileErrorResponse(message, stdout, stderr, durationMs)`. -/
def createCompileErrorResponse (message stdout stderr : String)
    (durationMs : Nat) : ZigWorkerResponse :=
  .compileError stdout stderr durationMs message

/-- `EMIT_WASM_PATH = 'main.wasm'`. -/
def EMIT_WASM_PATH : List Char := "main.wasm".toList

/-- `extractWasmArtifact`: read the file at the fixed emission path and
clone its bytes; `null` when absent (or when the path holds a directory). -/
def extractWasmArtifact (appDirectory : DirContents) : Option (List Nat) :=
  match getFileAtPath appDirectory EMIT_WASM_PATH with
  | none => none
  | some file => some file.1

/-- The post-`wasi.start` decision tail of `runCompilation`
(`zig-worker.ts:196–217`): a nonzero exit code yields the compile-error
`"Zig exited with code N"` carrying the captured stdio; with exit code 0 a
missing artifact yields the distinct `"Compiled artifact missing at
main.wasm"` error; otherwise the artifact bytes become a compile-success. -/
def compileResponseFor (exitCode : Nat) (appDirectory : DirContents)
    (stdoutText stderrText : String) (durationMs : Nat) : ZigWorkerResponse :=
  if exitCode ≠ 0 then
    createCompileErrorResponse ("Zig exited with code " ++ toString exitCode)
      stdoutText stderrText durationMs
  else
    match extractWasmArtifact appDirectory with
    | none =>
      createCompileErrorResponse "Compiled artifact missing at main.wasm"
        stdoutText stderrText durationMs
    | some wasmBuffer => .compileSuccess wasmBuffer stdoutText stderrText durationMs

/-- C2: a nonzero compiler exit code always produces the compile-error
response whose message reports that exit code and which carries the
captured stdout/stderr — never a compile-success (and the compile worker's
response type triggers no run); a zero exit code with no artifact at
`main.wasm` produces the distinct artifact-missing compile-error. -/
theorem C2_compile_failure_paths (exitCode : Nat) (appDirectory : DirContents)
    (stdoutText stderrText : String) (durationMs : Nat) :
    (exitCode ≠ 0 →
      compileResponseFor exitCode appDirectory stdoutText stderrText durationMs =
        createCompileErrorResponse ("Zig exited with code " ++ toString exitCode)
          stdoutText stderrText durationMs ∧
      ∀ wasm out err dur,
        compileResponseFor exitCode appDirectory stdoutText stderrText durationMs ≠
          .compileSuccess wasm out err dur) ∧
    (exitCode = 0 → extractWasmArtifact appDirectory = none →
      compileResponseFor exitCode appDirectory stdoutText stderrText durationMs =
        createCompileErrorResponse "Compiled artifact missing at main.wasm"
          stdoutText stderrText durationMs) := by
  constructor
  · intro hne
    rw [compileResponseFor, if_pos hne]
    refine ⟨rfl, ?_⟩
    intro wasm out err dur
    simp [createCompileErrorResponse]
  · intro h0 hart
    rw [compileResponseFor, if_neg (by simp [h0]), hart]

theorem C2_witness :
    compileResponseFor 1 [] "out" "err" 5 =
      createCompileErrorResponse ("Zig exited with code " ++ toString 1)
        "out" "err" 5 ∧
    compileResponseFor 0 [] "out" "err" 5 =
      createCompileErrorResponse "Compiled artifact missing at main.wasm"
        "out" "err" 5 :=
  ⟨((C2_compile_failure_paths 1 [] "out" "err" 5).1 (by decide)).1,
   (C2_compile_failure_paths 0 [] "out" "err" 5).2 rfl (by decide)⟩

/-! ### Run worker execution result (`executeProgram`,
`runner-worker.ts:146–179`). -/

inductive RunnerResponse where
  | runSuccess (stdout stderr : String) (exitCode : Nat) (durationMs : Nat)
  | runError (message : String) (stderr : String) (durationMs : Option Nat)
  deriving DecidableEq

/-- The result shape of `executeProgram`: `startOutcome` is the outcome of
the `try` block (instantiate + `wasi.start`): `.ok exitCode` when the
program starts and runs to completion — whatever the exit code — and
`.error message` when anything throws (e.g. instantiation failure).  The
catch branch reports only the captured stderr. -/
def executeProgram (startOutcome : Except String Nat)
    (stdoutText stderrText : String) (durationMs : Nat) : RunnerResponse :=
  match startOutcome with
  | .ok exitCode => .runSuccess stdoutText stderrText exitCode durationMs
  | .error message => .runError message stderrText (some durationMs)

/-- C6: a program that instantiates and starts successfully always yields a
run-success carrying its exit code — even a nonzero one — and never a
run-error; run-error arises exactly from the thrown-error path. -/
theorem C6_run_nonzero_exit_is_success (exitCode : Nat)
    (stdoutText stderrText : String) (durationMs : Nat) :
    executeProgram (.ok exitCode) stdoutText stderrText durationMs =
      .runSuccess stdoutText stderrText exitCode durationMs ∧
    (∀ message stderr2 dur2,
      executeProgram (.ok exitCode) stdoutText stderrText durationMs ≠
        .runError message stderr2 dur2) ∧
    (∀ message, executeProgram (.error message) stdoutText stderrText durationMs =
      .runError message stderrText (some durationMs)) := by
  refine ⟨rfl, ?_, fun _ => rfl⟩
  intro message stderr2 dur2
  simp [executeProgram]

/-! ### `buildZigArgs` (`zig-worker.ts:265–275`). -/

inductive OptimizeLevel where
  | Debug
  | ReleaseFast
  | ReleaseSafe
  | ReleaseSmall
  deriving DecidableEq

/-- `buildZigArgs(entryPath, optimize)`: the `optimize` parameter is
declared but never read — the argument vector is fixed. -/
def buildZigArgs (entryPath : String) (optimize : Option OptimizeLevel) :
    List String :=
  ["zig.wasm", "build-exe", entryPath, "-fno-llvm", "-fno-lld",
   "-fno-ubsan-rt", "-fno-entry"]

/-- C10: two compile requests differing only in `optimize` produce the
identical fixed argument vector, so the requested optimization level has no
effect on compilation. -/
theorem C10_buildZigArgs_ignores_optimize (entryPath : String)
    (o1 o2 : Option OptimizeLevel) :
    buildZigArgs entryPath o1 = buildZigArgs entryPath o2 ∧
    buildZigArgs entryPath o1 =
      ["zig.wasm", "build-exe", entryPath, "-fno-llvm", "-fno-lld",
       "-fno-ubsan-rt", "-fno-entry"] :=
  ⟨rfl, rfl⟩

/-! ### Inbound message validation (`isCompileRequest`, `zig-worker.ts:416`;
`isRunnerRequest`, `runner-worker.ts:300`; and the two `message`
handlers). JS runtime values are modelled by `JsValue`. -/

inductive JsValue where
  | null
  | undefined
  | boolean (b : Bool)
  | number (n : Int)
  | str (s : String)
  | arr (elems : List JsValue)
  | obj (fields : List (String × JsValue))
  | binaryBuffer (bytes : List Nat)

/-- JS property lookup on an object's own fields. -/
def lookupField : List (String × JsValue) → String → JsValue
  | [], _ => .undefined
  | (k, v) :: rest, name => if k = name then v else lookupField rest name

/-- `candidate.name`: property access; non-objects yield `undefined` for the
property names the workers inspect. -/
def jsField : JsValue → String → JsValue
  | .obj fields, name => lookupField fields name
  | _, _ => .undefined

/-- `typeof input === 'object'` (`null`, arrays, plain objects and
`ArrayBuffer`s all have typeof `'object'`). -/
def jsIsObjectType : JsValue → Bool
  | .null | .arr _ | .obj _ | .binaryBuffer _ => true
  | _ => false

/-- JS truthiness of `input` (`!input`). -/
def jsTruthy : JsValue → Bool
  | .null | .undefined => false
  | .boolean b => b
  | .number n => decide (n ≠ 0)
  | .str s => decide (s ≠ "")
  | .arr _ | .obj _ | .binaryBuffer _ => true

/-- `Array.isArray(x)`. -/
def jsIsArray : JsValue → Bool
  | .arr _ => true
  | _ => false

/-- `x instanceof ArrayBuffer`. -/
def jsIsArrayBuffer : JsValue → Bool
  | .binaryBuffer _ => true
  | _ => false

/-- `isCompileRequest` (`zig-worker.ts:416`): a truthy object whose `type`
is `'compile'`, whose `files` is an array, and whose `entryPath` is a
string. -/
def isCompileRequest (input : JsValue) : Bool :=
  if !jsTruthy input || !jsIsObjectType input then false
  else
    (match jsField input "type" with
      | .str s => decide (s = "compile")
      | _ => false) &&
    jsIsArray (jsField input "files") &&
    (match jsField input "entryPath" with
      | .str _ => true
      | _ => false)

/-- `isRunnerRequest` (`runner-worker.ts:300`): a truthy object whose
`type` is `'run'` and whose `wasm` is an `ArrayBuffer`. -/
def isRunnerRequest (input : JsValue) : Bool :=
  if !jsTruthy input || !jsIsObjectType input then false
  else
    (match jsField input "type" with
      | .str s => decide (s = "run")
      | _ => false) &&
    jsIsArrayBuffer (jsField input "wasm")

/-- `postCompileError(message)` = `createCompileErrorResponse(message, '',
'', 0)` posted to the host. -/
def postCompileError (message : String) : ZigWorkerResponse :=
  createCompileErrorResponse message "" "" 0

/-- `postRunError(message)`: `{ type: 'run-error', message, stderr: '' }`
(no `durationMs`). -/
def postRunError (message : String) : RunnerResponse :=
  .runError message "" none

/-- What the zig-worker `message` handler does with an arriving payload. -/
inductive ZigWorkerAction where
  | rejected (response : ZigWorkerResponse)
  | enqueued (request : JsValue)

/-- zig-worker `message` listener (`zig-worker.ts:32–42`): reject invalid
payloads with a posted compile-error, otherwise enqueue. -/
def zigWorkerOnMessage (payload : JsValue) : ZigWorkerAction :=
  if isCompileRequest payload then .enqueued payload
  else .rejected (postCompileError "Invalid message for zig-worker (expected compile request)")

/-- What the runner-worker `message` handler does with an arriving payload. -/
inductive RunnerAction where
  | rejected (response : RunnerResponse)
  | enqueued (request : JsValue)

/-- runner-worker `message` listener (`runner-worker.ts:96–106`). -/
def runnerOnMessage (payload : JsValue) : RunnerAction :=
  if isRunnerRequest payload then .enqueued payload
  else .rejected (postRunError "Invalid runner request payload")

theorem strMatch_eq_iff (x : JsValue) (t : String) :
    (match x with
      | .str s => decide (s = t)
      | _ => false) = true ↔ x = .str t := by
  cases x <;> simp

theorem strMatch_any_iff (x : JsValue) :
    (match x with
      | JsValue.str _ => true
      | _ => false) = true ↔ ∃ s, x = .str s := by
  cases x <;> simp

theorem jsIsArray_iff (x : JsValue) : jsIsArray x = true ↔ ∃ l, x = .arr l := by
  cases x <;> simp [jsIsArray]

theorem jsIsArrayBuffer_iff (x : JsValue) :
    jsIsArrayBuffer x = true ↔ ∃ b, x = .binaryBuffer b := by
  cases x <;> simp [jsIsArrayBuffer]

/-- C7: every inbound payload that is not a well-formed request is answered
with a posted error response (compile-error resp. run-error) — not dropped
and not thrown — and the validators accept exactly the well-formed shapes
of §6 of the spec. -/
theorem C7_malformed_messages_rejected :
    (∀ v : JsValue, isCompileRequest v = false →
      zigWorkerOnMessage v =
        .rejected (postCompileError
          "Invalid message for zig-worker (expected compile request)")) ∧
    (∀ v : JsValue, isRunnerRequest v = false →
      runnerOnMessage v = .rejected (postRunError "Invalid runner request payload")) ∧
    (∀ v : JsValue, isCompileRequest v = true ↔
      (jsTruthy v = true ∧ jsIsObjectType v = true ∧
       jsField v "type" = .str "compile" ∧ (∃ l, jsField v "files" = .arr l) ∧
       (∃ s, jsField v "entryPath" = .str s))) ∧
    (∀ v : JsValue, isRunnerRequest v = true ↔
      (jsTruthy v = true ∧ jsIsObjectType v = true ∧
       jsField v "type" = .str "run" ∧ (∃ b, jsField v "wasm" = .binaryBuffer b))) := by
  refine ⟨?_, ?_, ?_, ?_⟩
  · intro v h
    rw [zigWorkerOnMessage, h]
    simp
  · intro v h
    rw [runnerOnMessage, h]
    simp
  · intro v
    rw [isCompileRequest]
    by_cases ht : jsTruthy v
    · by_cases ho : jsIsObjectType v
      · rw [if_neg (by simp [ht, ho])]
        simp only [Bool.and_eq_true, strMatch_eq_iff, strMatch_any_iff, jsIsArray_iff]
        constructor
        · rintro ⟨⟨h1, h2⟩, h3⟩
          exact ⟨ht, ho, h1, h2, h3⟩
        · rintro ⟨_, _, h1, h2, h3⟩
          exact ⟨⟨h1, h2⟩, h3⟩
      · rw [if_pos (by simp [ho])]
        simp [ho]
    · rw [if_pos (by simp [ht])]
      simp [ht]
  · intro v
    rw [isRunnerRequest]
    by_cases ht : jsTruthy v
    · by_cases ho : jsIsObjectType v
      · rw [if_neg (by simp [ht, ho])]
        simp only [Bool.and_eq_true, strMatch_eq_iff, jsIsArrayBuffer_iff]
        constructor
        · rintro ⟨h1, h2⟩
          exact ⟨ht, ho, h1, h2⟩
        · rintro ⟨_, _, h1, h2⟩
          exact ⟨h1, h2⟩
      · rw [if_pos (by simp [ho])]
        simp [ho]
    · rw [if_pos (by simp [ht])]
      simp [ht]

theorem C7_witness :
    isCompileRequest .null = false ∧
    zigWorkerOnMessage .null =
      .rejected (postCompileError
        "Invalid message for zig-worker (expected compile request)") ∧
    isRunnerRequest (.str "run") = false ∧
    runnerOnMessage (.str "run") =
      .rejected (postRunError "Invalid runner request payload") :=
  ⟨rfl, C7_malformed_messages_rejected.1 .null rfl, rfl,
   C7_malformed_messages_rejected.2.1 (.str "run") rfl⟩

/-! ### Stack-overflow fault handling: the global `error` /
`unhandledrejection` listeners of `zig-worker.ts` (lines 49–104) and
`runner-worker.ts` (lines 10–42). -/

/-- The shape of a JS error value as seen by the handlers: whether it is an
`Error` instance, its `message`, and its `name`. -/
structure JsErrorValue where
  isError : Bool
  message : String
  name : String
  deriving DecidableEq

/-- JS `hay.includes(needle)`. -/
def containsSubstring (hay needle : List Char) : Bool :=
  hay.tails.any fun t => needle.isPrefixOf t

/-- The stack-overflow classifier shared by all four handlers:
`error instanceof Error && (error.message.includes('recursion') ||
error.message.includes('call stack') || error.name === 'RangeError' ||
error.name === 'InternalError')`. -/
def isStackOverflowShaped (e : JsErrorValue) : Bool :=
  e.isError &&
    (containsSubstring e.message.toList "recursion".toList ||
     containsSubstring e.message.toList "call stack".toList ||
     decide (e.name = "RangeError") || decide (e.name = "InternalError"))

/-- The zig-worker module-level mutable state touched by the handlers:
`zigModulePromise` (cached compiled compiler module), `compilationCount`
and `isCompiling`. -/
structure ZigWorkerMutableState where
  zigModulePromise : Option Unit
  compilationCount : Nat
  isCompiling : Bool
  deriving DecidableEq

/-- The user-facing diagnostic of the zig-worker global `error` handler. -/
def zigStackOverflowGlobalMessage : String :=
  "⚠️ WASM Compiler Stack Overflow\n\n" ++
  "The Zig compiler running in your browser hit a stack limit during semantic analysis.\n\n" ++
  "**This is a known limitation of the browser playground.**\n\n" ++
  "Possible causes:\n" ++
  "• Standard library code triggering deep analysis (not your fault!)\n" ++
  "• Complex comptime recursion or generic types\n" ++
  "• Circular type dependencies\n\n" ++
  "Technical: The WASM Zig compiler binary has a fixed stack size that cannot be increased at runtime."

/-- zig-worker global `error` listener (`zig-worker.ts:49–81`): on a
stack-overflow-shaped error, post the diagnostic compile-error, clear the
cached module promise, reset the compilation counter, clear the busy flag,
and post `{ type: 'fatal-error', message: 'stack-overflow' }`. -/
def zigWorkerOnError (s : ZigWorkerMutableState) (error : JsErrorValue) :
    ZigWorkerMutableState × List ZigWorkerResponse :=
  if isStackOverflowShaped error then
    (⟨none, 0, false⟩,
     [postCompileError zigStackOverflowGlobalMessage, .fatalError "stack-overflow"])
  else (s, [])

/-- zig-worker `unhandledrejection` listener (`zig-worker.ts:83–104`). -/
def zigWorkerOnUnhandledRejection (s : ZigWorkerMutableState)
    (error : JsErrorValue) : ZigWorkerMutableState × List ZigWorkerResponse :=
  if isStackOverflowShaped error then
    (⟨none, 0, false⟩,
     [postCompileError "Compiler encountered a recursion error during async operation",
      .fatalError "stack-overflow"])
  else (s, [])

/-- runner-worker global `error` listener (`runner-worker.ts:10–25`): posts
only a run-error diagnostic (the runner has no module cache and posts no
fatal-error message). -/
def runnerOnError (error : JsErrorValue) : List RunnerResponse :=
  if isStackOverflowShaped error then
    [postRunError "Program caused stack overflow - likely infinite recursion in your code"]
  else []

/-- runner-worker `unhandledrejection` listener (`runner-worker.ts:27–42`). -/
def runnerOnUnhandledRejection (error : JsErrorValue) : List RunnerResponse :=
  if isStackOverflowShaped error then
    [postRunError "Program caused stack overflow during async operation"]
  else []

/-- Is an outbound zig-worker message the `fatal-error`/`stack-overflow`
notification? -/
def isFatalStackOverflowMsg : ZigWorkerResponse → Bool
  | .fatalError m => decide (m = "stack-overflow")
  | _ => false

def stackErr : JsErrorValue := ⟨true, "Maximum call stack size exceeded", "RangeError"⟩

/-- C8 counterexample: a stack-overflow-shaped error injected into the *run*
pipeline's handler yields only a run-error diagnostic; the runner-worker
posts no `fatal-error` message at all — its outbound response type does not
even have one — contradicting "exactly one outbound fatal-error message"
for the run pipeline. -/
theorem C8_counterexample :
    isStackOverflowShaped stackErr = true ∧
    runnerOnError stackErr =
      [RunnerResponse.runError
        "Program caused stack overflow - likely infinite recursion in your code" "" none] ∧
    ∀ m ∈ runnerOnError stackErr, ∃ msg st d, m = RunnerResponse.runError msg st d := by
  refine ⟨by decide, by decide, ?_⟩
  intro m hm
  have hcl : runnerOnError stackErr =
      [RunnerResponse.runError
        "Program caused stack overflow - likely infinite recursion in your code" "" none] := by
    decide
  rw [hcl] at hm
  rcases List.mem_cons.mp hm with rfl | hm2
  · exact ⟨_, _, _, rfl⟩
  · simp at hm2

set_option maxHeartbeats 1000000 in
/-- C8 (amended): a single stack-exhaustion-shaped error injected into the
*compile* worker's handlers yields exactly one outbound fatal-error message
with message `stack-overflow`, clears the cached compiled module promise
and resets the compilation counter (and the busy flag); the *run* worker's
handlers instead post exactly one run-error diagnostic and no fatal-error
message (the runner holds no module cache to clear). -/
theorem C8_stack_overflow_handling (s : ZigWorkerMutableState)
    (e : JsErrorValue) (h : isStackOverflowShaped e = true) :
    ((zigWorkerOnError s e).1.zigModulePromise = none ∧
     (zigWorkerOnError s e).1.compilationCount = 0 ∧
     (zigWorkerOnError s e).1.isCompiling = false ∧
     (zigWorkerOnError s e).2.countP isFatalStackOverflowMsg = 1) ∧
    ((zigWorkerOnUnhandledRejection s e).1.zigModulePromise = none ∧
     (zigWorkerOnUnhandledRejection s e).1.compilationCount = 0 ∧
     (zigWorkerOnUnhandledRejection s e).2.countP isFatalStackOverflowMsg = 1) ∧
    runnerOnError e =
      [postRunError "Program caused stack overflow - likely infinite recursion in your code"] ∧
    runnerOnUnhandledRejection e =
      [postRunError "Program caused stack overflow during async operation"] := by
  unfold zigWorkerOnError zigWorkerOnUnhandledRejection runnerOnError
    runnerOnUnhandledRejection
  simp only [if_pos h]
  refine ⟨⟨?_, ?_, ?_, ?_⟩, ⟨?_, ?_, ?_⟩, ?_, ?_⟩ <;> trivial

theorem C8_witness :
    ((zigWorkerOnError ⟨some (), 7, true⟩ stackErr).1.zigModulePromise = none ∧
     (zigWorkerOnError ⟨some (), 7, true⟩ stackErr).1.compilationCount = 0 ∧
     (zigWorkerOnError ⟨some (), 7, true⟩ stackErr).1.isCompiling = false ∧
     (zigWorkerOnError ⟨some (), 7, true⟩ stackErr).2.countP isFatalStackOverflowMsg = 1) ∧
    ((zigWorkerOnUnhandledRejection ⟨some (), 7, true⟩ stackErr).1.zigModulePromise = none ∧
     (zigWorkerOnUnhandledRejection ⟨some (), 7, true⟩ stackErr).1.compilationCount = 0 ∧
     (zigWorkerOnUnhandledRejection ⟨some (), 7, true⟩ stackErr).2.countP
        isFatalStackOverflowMsg = 1) ∧
    runnerOnError stackErr =
      [postRunError "Program caused stack overflow - likely infinite recursion in your code"] ∧
    runnerOnUnhandledRejection stackErr =
      [postRunError "Program caused stack overflow during async operation"] :=
  C8_stack_overflow_handling ⟨some (), 7, true⟩ stackErr (by decide)

/-! ### Standard-library hydration version check (the stdlib-directory
module: `getTreeEntry`, `extractStdlibVersion`, `warnOnce`,
`assertStdlibVersion`). -/

/-- The module's `TreeNode` union: `Map<string, TreeNode | Uint8Array>`. -/
inductive TreeNode where
  | dir (entries : List (List Char × TreeNode))
  | bytes (data : List Nat)

/-- `map.get(segment)` on a tree node's entries. -/
def lookupTree : List (List Char × TreeNode) → List Char → Option TreeNode
  | [], _ => none
  | (k, v) :: rest, key => if k = key then some v else lookupTree rest key

/-- `getTreeEntry(node, segments)`: walk the segments; a byte leaf mid-path
or a missing child yields `undefined`. -/
def getTreeEntry (node : TreeNode) : List (List Char) → Option TreeNode
  | [] => some node
  | seg :: rest =>
    match node with
    | .bytes _ => none
    | .dir entries =>
      match lookupTree entries seg with
      | none => none
      | some next => getTreeEntry next rest

/-- `TextDecoder` substitution character for malformed input. -/
def replacementChar : Char := Char.ofNat 0xFFFD

def isUtf8Cont (b : Nat) : Bool := decide (0x80 ≤ b) && decide (b < 0xC0)

/-- UTF-8 decoding worker, structurally recursive on a fuel counter (one
unit per decoded code point; each step consumes at least one byte, so
`bytes.length` fuel always suffices). -/
def utf8DecodeAux : Nat → List Nat → List Char
  | 0, _ => []
  | Nat.succ _, [] => []
  | Nat.succ fuel, b :: rest =>
    if b < 0x80 then Char.ofNat b :: utf8DecodeAux fuel rest
    else if b < 0xC0 then replacementChar :: utf8DecodeAux fuel rest
    else if b < 0xE0 then
      match rest with
      | b2 :: rest2 =>
        if isUtf8Cont b2 then
          Char.ofNat ((b - 0xC0) * 64 + (b2 - 0x80)) :: utf8DecodeAux fuel rest2
        else replacementChar :: utf8DecodeAux fuel rest
      | [] => [replacementChar]
    else if b < 0xF0 then
      match rest with
      | b2 :: b3 :: rest3 =>
        if isUtf8Cont b2 && isUtf8Cont b3 then
          Char.ofNat ((b - 0xE0) * 4096 + (b2 - 0x80) * 64 + (b3 - 0x80)) ::
            utf8DecodeAux fuel rest3
        else replacementChar :: utf8DecodeAux fuel rest
      | _ => [replacementChar]
    else
      match rest with
      | b2 :: b3 :: b4 :: rest4 =>
        if isUtf8Cont b2 && isUtf8Cont b3 && isUtf8Cont b4 then
          Char.ofNat ((b - 0xF0) * 262144 + (b2 - 0x80) * 4096 +
              (b3 - 0x80) * 64 + (b4 - 0x80)) :: utf8DecodeAux fuel rest4
        else replacementChar :: utf8DecodeAux fuel rest
      | _ => [replacementChar]

/-- `textDecoder.decode(bytes)`: UTF-8 decoding, faithful on well-formed
input (the decoded stdlib sources), substituting U+FFFD on malformed
leads. -/
def utf8Decode (bytes : List Nat) : List Char :=
  utf8DecodeAux bytes.length bytes

/-- Consume `\s+`. -/
def dropWsPlus (s : List Char) : Option (List Char) :=
  match s with
  | c :: rest =>
    if jsWhitespace c then some (rest.dropWhile jsWhitespace) else none
  | [] => none

/-- Consume a literal token. -/
def matchLit (lit s : List Char) : Option (List Char) :=
  if lit.isPrefixOf s then some (s.drop lit.length) else none

/-- Try `VERSION_REGEX = /pub\s+const\s+Version\s*=\s*"([^"]+)"/` at the
current position, returning the capture group. -/
def matchVersionAt (s : List Char) : Option (List Char) := do
  let s1 ← matchLit "pub".toList s
  let s2 ← dropWsPlus s1
  let s3 ← matchLit "const".toList s2
  let s4 ← dropWsPlus s3
  let s5 ← matchLit "Version".toList s4
  let s6 := s5.dropWhile jsWhitespace
  let s7 ← matchLit ['='] s6
  let s8 := s7.dropWhile jsWhitespace
  let s9 ← matchLit ['"'] s8
  let capture := s9.takeWhile fun c => decide (c ≠ '"')
  if capture.isEmpty then none
  else
    match s9.drop capture.length with
    | '"' :: _ => some capture
    | _ => none

/-- `VERSION_REGEX.exec(source)`: leftmost match. -/
def execVersionRegex : List Char → Option (List Char)
  | [] => none
  | c :: rest =>
    match matchVersionAt (c :: rest) with
    | some v => some v
    | none => execVersionRegex rest

/-- `STDLIB_VERSION_PATH = ['std', 'builtin.zig']`. -/
def STDLIB_VERSION_PATH : List (List Char) := ["std".toList, "builtin.zig".toList]

/-- Modelled from the spec: `PLAYGROUND_ZIG_VERSION` is imported from the
`toolchain-info` module, which is not among the provided sources; the spec
describes it only as "an expected toolchain version string", and every
claim below is insensitive to its exact value.  The repository's sample
programs use Zig 0.15.0. -/
def PLAYGROUND_ZIG_VERSION : List Char := "0.15.0".toList

/-- `extractStdlibVersion(tree)`: the version capture from
`std/builtin.zig`, `null` when the entry is not a byte leaf or the regex
does not match. -/
def extractStdlibVersion (tree : TreeNode) : Option (List Char) :=
  match getTreeEntry tree STDLIB_VERSION_PATH with
  | some (.bytes data) => execVersionRegex (utf8Decode data)
  | _ => none

def stdlibVersionWarningMessage : List Char :=
  ("Unable to determine Zig stdlib version from zig.tar.gz. " ++
   "Continuing without strict version verification.").toList

/-- `warnOnce(message)` over the module's `stdlibVersionWarningIssued`
flag: the new flag plus the warnings actually emitted. -/
def warnOnce (issued : Bool) (message : List Char) : Bool × List (List Char) :=
  if issued then (issued, []) else (true, [message])

def stdlibMismatchMessage (version : List Char) : List Char :=
  "Zig stdlib archive version mismatch: expected ".toList ++
    PLAYGROUND_ZIG_VERSION ++ " but found ".toList ++ version ++
    (". Please replace public/zig/zig.tar.gz with the matching toolchain " ++
     "assets (e.g., download zig.tar.gz from the same build as zig.wasm).").toList

/-- `assertStdlibVersion(tree)` with the warning flag passed explicitly: no
detectable version → continue, warning at most once; a version different
from `PLAYGROUND_ZIG_VERSION` → throw (`.error`); matching → continue
silently. -/
def assertStdlibVersion (tree : TreeNode) (warningIssued : Bool) :
    Except (List Char) (Bool × List (List Char)) :=
  match extractStdlibVersion tree with
  | none => .ok (warnOnce warningIssued stdlibVersionWarningMessage)
  | some version =>
    if version ≠ PLAYGROUND_ZIG_VERSION then .error (stdlibMismatchMessage version)
    else .ok (warningIssued, [])

theorem assertStdlibVersion_of_none (tree : TreeNode) (w : Bool)
    (h : extractStdlibVersion tree = none) :
    assertStdlibVersion tree w = .ok (warnOnce w stdlibVersionWarningMessage) := by
  rw [assertStdlibVersion, h]

theorem assertStdlibVersion_of_some (tree : TreeNode) (w : Bool) (v : List Char)
    (h : extractStdlibVersion tree = some v) :
    assertStdlibVersion tree w =
      if v ≠ PLAYGROUND_ZIG_VERSION then .error (stdlibMismatchMessage v)
      else .ok (w, []) := by
  rw [assertStdlibVersion, h]

/-- C9: whenever a toolchain version string is extracted from the known
file in the hydrated archive and it differs from the expected playground
version, hydration fails with a thrown error; when no version can be
detected, hydration continues and only a one-time soft warning is issued;
a matching version passes silently. -/
theorem C9_stdlib_version_check (tree : TreeNode) (warningIssued : Bool) :
    (∀ version, extractStdlibVersion tree = some version →
      version ≠ PLAYGROUND_ZIG_VERSION →
      assertStdlibVersion tree warningIssued =
        .error (stdlibMismatchMessage version)) ∧
    (extractStdlibVersion tree = none →
      assertStdlibVersion tree warningIssued =
        .ok (true, if warningIssued then [] else [stdlibVersionWarningMessage])) ∧
    (∀ version, extractStdlibVersion tree = some version →
      version = PLAYGROUND_ZIG_VERSION →
      assertStdlibVersion tree warningIssued = .ok (warningIssued, [])) := by
  refine ⟨?_, ?_, ?_⟩
  · intro v hv hne
    rw [assertStdlibVersion_of_some tree warningIssued v hv, if_pos hne]
  · intro hnone
    rw [assertStdlibVersion_of_none tree warningIssued hnone]
    cases warningIssued <;> simp [warnOnce]
  · intro v hv hEq
    rw [assertStdlibVersion_of_some tree warningIssued v hv,
      if_neg (by simp [hEq])]

def versionFileContents : List Char := "pub const Version = \"9.9.9\";".toList

def mismatchTree : TreeNode :=
  .dir [("std".toList,
    .dir [("builtin.zig".toList, .bytes (utf8Encode versionFileContents))])]

def emptyTree : TreeNode := .dir []

theorem C9_witness :
    extractStdlibVersion mismatchTree = some "9.9.9".toList ∧
    assertStdlibVersion mismatchTree false =
      .error (stdlibMismatchMessage "9.9.9".toList) ∧
    extractStdlibVersion emptyTree = none ∧
    assertStdlibVersion emptyTree false =
      .ok (true, [stdlibVersionWarningMessage]) := by
  refine ⟨by decide, ?_, by decide, ?_⟩
  · exact (C9_stdlib_version_check mismatchTree false).1 "9.9.9".toList
      (by decide) (by decide)
  · have h := (C9_stdlib_version_check emptyTree false).2.1 (by decide)
    simpa using h
